import Mathlib

/-!
Shallow embedding of the `hivemind-project` core (genetic algorithm +
feed-forward neural network) and proofs of its specified properties.

Conventions:
* Rust `f32` values are modelled as `ℚ` (exact rational arithmetic).
* The mutable random source `&mut dyn RngCore` is modelled as an explicit
  state value `Rng` threaded through every stochastic operation: a stream of
  raw rational draws plus a cursor.  `gen_range(lo..=hi)` maps a raw draw
  into `[lo, hi)` via its fractional part; `gen_bool(0.5)` compares a unit
  draw with `1/2`.
* Rust panics (`assert!`, `expect`, `todo!`) observable by a caller are
  modelled as `Except` errors, with the error vocabulary of the design
  (`EmptyPopulation`, `EmptyOrDegeneratePopulation`,
  `ChromosomeLengthMismatch`, `InvalidTopology`, `InputSizeMismatch`,
  `IndexOutOfRange`).
-/

namespace Hivemind

/-- The failure vocabulary of the design: every failure is a precondition
violation surfaced immediately. -/
inductive EvoError where
  | emptyPopulation
  | emptyOrDegeneratePopulation
  | chromosomeLengthMismatch
  | invalidTopology
  | inputSizeMismatch
  | indexOutOfRange
deriving DecidableEq, Repr

/-- A seedable pseudo-random source: an infinite stream of raw rational
draws together with a cursor.  Two sources are identically seeded exactly
when they are equal. -/
structure Rng where
  stream : Nat → ℚ
  idx : Nat

/-- One raw draw, mapped into the unit interval `[0, 1)` by taking its
fractional part; the cursor advances. -/
def Rng.unit (r : Rng) : ℚ × Rng :=
  (Int.fract (r.stream r.idx), ⟨r.stream, r.idx + 1⟩)

/-- Model of `rng.gen_range(lo..=hi)`: an affine map of a unit draw into the
requested range. -/
def Rng.genRange (r : Rng) (lo hi : ℚ) : ℚ × Rng :=
  let p := r.unit
  (lo + (hi - lo) * p.1, p.2)

/-- Model of `rng.gen_bool(0.5)`: a fair coin from one unit draw. -/
def Rng.genBool (r : Rng) : Bool × Rng :=
  let p := r.unit
  (decide (p.1 < 1/2), p.2)

/-! ## Neural network (`libs/neural-network/src/lib.rs`) -/

/-- `Neuron { bias: f32, weights: Vec<f32> }`. -/
structure Neuron where
  bias : ℚ
  weights : List ℚ
deriving DecidableEq, Repr

/-- `Layer { neurons: Vec<Neuron> }`. -/
structure Layer where
  neurons : List Neuron
deriving DecidableEq, Repr

/-- `Network { layers: Vec<Layer> }`. -/
structure Network where
  layers : List Layer
deriving DecidableEq, Repr

/-- `LayerTopology { neurons: usize }`. -/
structure LayerTopology where
  neurons : Nat
deriving DecidableEq, Repr

/-- `Neuron::propagate`: zip the inputs with the weights, sum the products,
add the bias, floor at zero.  The `zip` silently drops the tail of the
longer of the two sequences: there is no length check in the source. -/
def Neuron.propagate (n : Neuron) (inputs : List ℚ) : ℚ :=
  let output := ((inputs.zip n.weights).map (fun p => p.1 * p.2)).sum
  max (n.bias + output) 0

/-- `Layer::propagate`: one output per neuron, each fed the whole input. -/
def Layer.propagate (l : Layer) (inputs : List ℚ) : List ℚ :=
  l.neurons.map (fun n => n.propagate inputs)

/-- `Network::propagate`: fold the input vector through the layers.  The
source performs no input-size validation whatsoever. -/
def Network.propagate (net : Network) (inputs : List ℚ) : List ℚ :=
  net.layers.foldl (fun acc layer => layer.propagate acc) inputs

/-- `Neuron::random`: one bias draw from `[-1, 1]`, then `output_size`
weight draws from `[-1, 1]`, in stream order. -/
def Neuron.randomWeights : Nat → Rng → List ℚ × Rng
  | 0, rng => ([], rng)
  | k + 1, rng =>
    let p := rng.genRange (-1) 1
    let q := Neuron.randomWeights k p.2
    (p.1 :: q.1, q.2)

/-- `Neuron::random(rng, output_size)`. -/
def Neuron.random (rng : Rng) (outputSize : Nat) : Neuron × Rng :=
  let b := rng.genRange (-1) 1
  let w := Neuron.randomWeights outputSize b.2
  (⟨b.1, w.1⟩, w.2)

/-- `(0..output_neurons).map(|_| Neuron::random(rng, input_neurons))`,
threading the random source left to right. -/
def Layer.randomNeurons (inputNeurons : Nat) : Nat → Rng → List Neuron × Rng
  | 0, rng => ([], rng)
  | k + 1, rng =>
    let p := Neuron.random rng inputNeurons
    let q := Layer.randomNeurons inputNeurons k p.2
    (p.1 :: q.1, q.2)

/-- `Layer::random(rng, input_neurons, output_neurons)`. -/
def Layer.random (rng : Rng) (inputNeurons outputNeurons : Nat) : Layer × Rng :=
  let p := Layer.randomNeurons inputNeurons outputNeurons rng
  (⟨p.1⟩, p.2)

/-- The adjacent pairs of a list, in order: the model of `slice::windows(2)`
as consumed by `Network::random`. -/
def windows2 : List Nat → List (Nat × Nat)
  | a :: b :: rest => (a, b) :: windows2 (b :: rest)
  | _ => []

/-- One `Layer::random` per adjacent topology pair, threading the source. -/
def Network.randomLayers : List (Nat × Nat) → Rng → List Layer × Rng
  | [], rng => ([], rng)
  | (i, o) :: rest, rng =>
    let p := Layer.random rng i o
    let q := Network.randomLayers rest p.2
    (p.1 :: q.1, q.2)

/-- `Network::random(rng, layers)`: `assert!(layers.len() > 1)` modelled as
an `InvalidTopology` error, then one layer per `windows(2)` pair. -/
def Network.random (rng : Rng) (layers : List LayerTopology) :
    Except EvoError (Network × Rng) :=
  if layers.length > 1 then
    let p := Network.randomLayers (windows2 (layers.map (fun t => t.neurons))) rng
    .ok (⟨p.1⟩, p.2)
  else
    .error .invalidTopology

/-! ## Genetic algorithm (`libs/genetic-algorithm/src/lib.rs`) -/

/-- `Chromosome { genes: Vec<f32> }`. -/
structure Chromosome where
  genes : List ℚ
deriving DecidableEq, Repr

/-- `Chromosome::len`. -/
def Chromosome.len (c : Chromosome) : Nat :=
  c.genes.length

/-- `impl FromIterator<f32> for Chromosome`: collect an ordered sequence of
floats into a chromosome. -/
def Chromosome.fromIterator (genes : List ℚ) : Chromosome :=
  ⟨genes⟩

/-- `impl IntoIterator for Chromosome`: decompose a chromosome back into its
ordered sequence of genes. -/
def Chromosome.intoIterator (c : Chromosome) : List ℚ :=
  c.genes

/-- The `Individual` trait: a capability set `{chromosome, fitness}` over a
domain type `I`. -/
structure IndividualImpl (I : Type) where
  chromosome : I → Chromosome
  fitness : I → ℚ

/-- The index selected by `WeightedIndex::sample` once a point `x` in
`[0, total)` has been drawn: the first index whose running prefix sum of
weights exceeds `x`. -/
def pickWeighted : List ℚ → ℚ → Nat
  | [], _ => 0
  | w :: ws, x => if x < w then 0 else pickWeighted ws (x - w) + 1

/-- `RouletteWheelSelection::select`: `population.choose_weighted(rng, fitness)`
with `.expect(..)`.  `choose_weighted` fails on an empty slice, on a negative
weight, or on a zero weight total — all surfaced by the `expect` as one
failure, modelled as `EmptyOrDegeneratePopulation`.  Otherwise it draws a
point uniformly in `[0, total)` and picks the individual whose cumulative
weight interval contains it. -/
def RouletteWheelSelection.select {I : Type} (ind : IndividualImpl I)
    (rng : Rng) (population : List I) : Except EvoError (I × Rng) :=
  let weights := population.map ind.fitness
  if population.length = 0 then .error .emptyOrDegeneratePopulation
  else if ∃ w ∈ weights, w < 0 then .error .emptyOrDegeneratePopulation
  else if weights.sum = 0 then .error .emptyOrDegeneratePopulation
  else
    let p := rng.unit
    match population[pickWeighted weights (p.1 * weights.sum)]? with
    | some chosen => .ok (chosen, p.2)
    | none => .error .indexOutOfRange

/-- Modelled from the spec: the body of
`impl CrossoverMethod for UniformCrossover` is absent from the source (the
`impl` item is an empty stub).  Per the design, independently for each gene
position a fair coin copies the gene from parent A or parent B.  This is the
per-position recursion over the two gene lists, threading the source. -/
def UniformCrossover.crossoverGenes : List ℚ → List ℚ → Rng → List ℚ × Rng
  | a :: as, b :: bs, rng =>
    let p := rng.genBool
    let q := UniformCrossover.crossoverGenes as bs p.2
    ((if p.1 then a else b) :: q.1, q.2)
  | _, _, rng => ([], rng)

/-- Modelled from the spec: `UniformCrossover::crossover` — parents of
unequal length fail with `ChromosomeLengthMismatch`; otherwise a child of
the same length is built by per-position fair coin flips. -/
def UniformCrossover.crossover (rng : Rng) (parentA parentB : Chromosome) :
    Except EvoError (Chromosome × Rng) :=
  if parentA.len = parentB.len then
    let p := UniformCrossover.crossoverGenes parentA.genes parentB.genes rng
    .ok (⟨p.1⟩, p.2)
  else
    .error .chromosomeLengthMismatch

/-- Modelled from the spec: the mutation strategy is absent from the source.
Per the design, for each gene independently, with probability `chance` the
gene becomes `gene + coefficient * u` with `u` uniform in `[-1, 1]`;
otherwise it is unchanged. -/
def MutationMethod.mutateGenes (chance coefficient : ℚ) :
    List ℚ → Rng → List ℚ × Rng
  | [], rng => ([], rng)
  | g :: gs, rng =>
    let p := rng.unit
    if p.1 < chance then
      let u := p.2.genRange (-1) 1
      let q := MutationMethod.mutateGenes chance coefficient gs u.2
      ((g + coefficient * u.1) :: q.1, q.2)
    else
      let q := MutationMethod.mutateGenes chance coefficient gs p.2
      (g :: q.1, q.2)

/-- Modelled from the spec: the chromosome-level mutation entry point. -/
def MutationMethod.mutate (chance coefficient : ℚ) (rng : Rng)
    (c : Chromosome) : Chromosome × Rng :=
  let p := MutationMethod.mutateGenes chance coefficient c.genes rng
  (⟨p.1⟩, p.2)

/-- `GeneticAlgorithm`, strategy-parameterized as the design requires: the
selection strategy the source holds, plus the crossover, mutation and
`from_chromosome` capabilities the design plugs in (the source marks their
call sites `// Crossover`, `// Mutation`, `// Convert ...` inside a `todo!()`
stub). -/
structure GeneticAlgorithm (I : Type) where
  ind : IndividualImpl I
  selectionMethod : Rng → List I → Except EvoError (I × Rng)
  crossoverMethod : Rng → Chromosome → Chromosome → Except EvoError (Chromosome × Rng)
  mutationMethod : Rng → Chromosome → Chromosome × Rng
  fromChromosome : Chromosome → Rng → I × Rng

/-- Modelled from the spec: the per-slot loop of `evolve` — the source's
`(0..population.len()).map(|_| {...}).collect()` with the `todo!()` body
completed per the design: select parent A, select parent B, cross them,
mutate the child, materialize a new individual. -/
def GeneticAlgorithm.evolveSlots {I : Type} (ga : GeneticAlgorithm I)
    (population : List I) : Nat → Rng → Except EvoError (List I × Rng)
  | 0, rng => .ok ([], rng)
  | n + 1, rng =>
    match ga.selectionMethod rng population with
    | .error e => .error e
    | .ok (pa, rng) =>
      match ga.selectionMethod rng population with
      | .error e => .error e
      | .ok (pb, rng) =>
        match ga.crossoverMethod rng (ga.ind.chromosome pa) (ga.ind.chromosome pb) with
        | .error e => .error e
        | .ok (child, rng) =>
          let m := ga.mutationMethod rng child
          let f := ga.fromChromosome m.1 m.2
          match GeneticAlgorithm.evolveSlots ga population n f.2 with
          | .error e => .error e
          | .ok (rest, rng) => .ok (f.1 :: rest, rng)

/-- `GeneticAlgorithm::evolve`: `assert!(!population.is_empty())` modelled
as an `EmptyPopulation` error, then one new individual per slot of the old
population (the slot body is spec-modelled, see `evolveSlots`). -/
def GeneticAlgorithm.evolve {I : Type} (ga : GeneticAlgorithm I) (rng : Rng)
    (population : List I) : Except EvoError (List I × Rng) :=
  if population.isEmpty then .error .emptyPopulation
  else GeneticAlgorithm.evolveSlots ga population population.length rng

/-! ## Helper lemmas -/

/-- The zip-multiply-sum of `Neuron::propagate`, as an indexed sum over the
common prefix of the two lists. -/
lemma zip_mul_sum : ∀ (xs ys : List ℚ),
    ((xs.zip ys).map (fun p => p.1 * p.2)).sum
      = ∑ i ∈ Finset.range (min xs.length ys.length), xs.getD i 0 * ys.getD i 0 := by
  intro xs
  induction xs with
  | nil => intro ys; simp
  | cons x xs ih =>
    intro ys
    cases ys with
    | nil => simp
    | cons y ys =>
      simp only [List.zip_cons_cons, List.map_cons, List.sum_cons, List.length_cons,
        Nat.succ_min_succ, Finset.sum_range_succ']
      rw [ih ys]
      simp [List.getD_cons_succ, List.getD_cons_zero, add_comm]

/-- Zipping ignores everything beyond the second list's length. -/
lemma zip_take_right : ∀ (xs ys : List ℚ), xs.zip ys = (xs.take ys.length).zip ys := by
  intro xs
  induction xs with
  | nil => intro ys; simp
  | cons x xs ih =>
    intro ys
    cases ys with
    | nil => simp
    | cons y ys => simp [List.zip_cons_cons, ih ys]

/-- `getD` of a replicated zero is zero everywhere. -/
lemma getD_replicate_zero : ∀ (m j : Nat), (List.replicate m (0:ℚ)).getD j 0 = 0 := by
  intro m
  induction m with
  | zero => intro j; simp [List.getD]
  | succ m ih =>
    intro j
    cases j with
    | zero => simp [List.replicate]
    | succ j => simp [List.replicate]

/-- Padding a list with trailing zeros does not change any `getD _ 0`. -/
lemma getD_append_replicate_zero (inputs : List ℚ) (m i : Nat) :
    (inputs ++ List.replicate m (0:ℚ)).getD i 0 = inputs.getD i 0 := by
  rcases Nat.lt_or_ge i inputs.length with h | h
  · exact List.getD_append _ _ _ _ h
  · rw [List.getD_append_right _ _ _ _ h, List.getD_eq_default _ _ h,
      getD_replicate_zero]

/-- `Neuron::propagate` as a closed formula: a biased product sum over the
common prefix of inputs and weights, floored at zero. -/
lemma propagate_eq_min_sum (n : Neuron) (inputs : List ℚ) :
    n.propagate inputs
      = max (n.bias + ∑ i ∈ Finset.range (min inputs.length n.weights.length),
          inputs.getD i 0 * n.weights.getD i 0) 0 := by
  rw [Neuron.propagate, zip_mul_sum]

/-! ## Theorems for the claims -/

/-- C2: for every neuron and every input vector of matching length, the
output is `max(0, bias + Σ weight_i * input_i)`; in particular the neuron
with bias `1/2` and weights `[-3/10, 8/10]` yields `23/20` on `[1/2, 1]`
and `0` on `[-10, -10]` (zero floor engaged). -/
theorem neuron_propagate_relu :
    (∀ (n : Neuron) (inputs : List ℚ), inputs.length = n.weights.length →
      n.propagate inputs
        = max 0 (n.bias + ∑ i ∈ Finset.range inputs.length,
            n.weights.getD i 0 * inputs.getD i 0)) ∧
    Neuron.propagate ⟨1/2, [-3/10, 8/10]⟩ [1/2, 1] = 23/20 ∧
    Neuron.propagate ⟨1/2, [-3/10, 8/10]⟩ [-10, -10] = 0 := by
  refine ⟨?_, ?_, ?_⟩
  · intro n inputs h
    rw [Neuron.propagate, zip_mul_sum, h, Nat.min_self, max_comm]
    have hc : ∑ i ∈ Finset.range n.weights.length, inputs.getD i 0 * n.weights.getD i 0
        = ∑ i ∈ Finset.range n.weights.length, n.weights.getD i 0 * inputs.getD i 0 :=
      Finset.sum_congr rfl (fun i _ => mul_comm _ _)
    rw [hc]
  · norm_num [Neuron.propagate]
  · norm_num [Neuron.propagate]

/-- Witness for C2: the general ReLU formula applied to the concrete neuron
with bias `1/2` and weights `[-3/10, 8/10]` on the input `[1/2, 1]`. -/
theorem neuron_propagate_relu_witness :
    ([(1:ℚ)/2, 1].length = (Neuron.mk (1/2) [-3/10, 8/10]).weights.length) ∧
    Neuron.propagate ⟨1/2, [-3/10, 8/10]⟩ [1/2, 1]
      = max 0 ((Neuron.mk (1/2) [-3/10, 8/10]).bias
          + ∑ i ∈ Finset.range ([(1:ℚ)/2, 1].length),
              (Neuron.mk (1/2) [-3/10, 8/10]).weights.getD i 0 * [(1:ℚ)/2, 1].getD i 0) :=
  ⟨by simp, neuron_propagate_relu.1 ⟨1/2, [-3/10, 8/10]⟩ [1/2, 1] (by simp)⟩

/-- C6: constructing a `Chromosome` from an ordered sequence of floats and
decomposing it back yields exactly the original sequence, and conversely. -/
theorem chromosome_roundtrip :
    (∀ (x : List ℚ), (Chromosome.fromIterator x).intoIterator = x) ∧
    (∀ (c : Chromosome), Chromosome.fromIterator c.intoIterator = c) := by
  exact ⟨fun x => rfl, fun c => rfl⟩

/-- C10: `Neuron::propagate` never signals an error on a length mismatch:
it sums products over the first `min(inputs.len, weights.len)` positions,
ignoring the excess of the longer sequence, and every layer (hence the
network) accepts inputs of any length, producing one output per neuron. -/
theorem propagate_ignores_excess :
    (∀ (n : Neuron) (inputs : List ℚ),
      n.propagate inputs
        = max (n.bias + ∑ i ∈ Finset.range (min inputs.length n.weights.length),
            inputs.getD i 0 * n.weights.getD i 0) 0) ∧
    (∀ (n : Neuron) (inputs : List ℚ),
      n.propagate inputs = n.propagate (inputs.take n.weights.length)) ∧
    (∀ (l : Layer) (inputs : List ℚ),
      (l.propagate inputs).length = l.neurons.length) := by
  refine ⟨?_, ?_, ?_⟩
  · intro n inputs
    exact propagate_eq_min_sum n inputs
  · intro n inputs
    rw [Neuron.propagate, Neuron.propagate, zip_take_right]
  · intro l inputs
    simp [Layer.propagate]

/-- A one-layer, one-neuron network whose sole neuron expects two inputs:
the concrete network of the C4 counterexample. -/
def netCex : Network := ⟨[⟨[⟨1/2, [-3/10, 8/10]⟩]⟩]⟩

/-- C4 counterexample: propagating a length-1 input through a network whose
first layer expects 2 inputs does not fail — it returns the ordinary value
`[7/20]`, the same value obtained from the zero-padded input `[1/2, 0]`.
There is no `InputSizeMismatch` failure path in the source. -/
theorem propagate_mismatch_counterexample :
    Network.propagate netCex [1/2] = [7/20] ∧
    Network.propagate netCex [1/2] = Network.propagate netCex [1/2, 0] := by
  constructor <;>
    norm_num [netCex, Network.propagate, Layer.propagate, Neuron.propagate]

/-- C4 amended: `propagate` performs no input-length validation and never
fails; an overlong input is silently truncated to the weight count and a
short input behaves exactly as if zero-padded to the weight count. -/
theorem propagate_mismatch_behavior :
    (∀ (n : Neuron) (inputs : List ℚ), n.weights.length ≤ inputs.length →
      n.propagate inputs = n.propagate (inputs.take n.weights.length)) ∧
    (∀ (n : Neuron) (inputs : List ℚ), inputs.length ≤ n.weights.length →
      n.propagate inputs
        = n.propagate (inputs ++ List.replicate (n.weights.length - inputs.length) 0)) := by
  constructor
  · intro n inputs _
    rw [Neuron.propagate, Neuron.propagate, zip_take_right]
  · intro n inputs h
    rw [propagate_eq_min_sum, propagate_eq_min_sum]
    have hlen : (inputs ++ List.replicate (n.weights.length - inputs.length) (0:ℚ)).length
        = n.weights.length := by
      simp [Nat.add_sub_cancel' h]
    rw [hlen, Nat.min_self, Nat.min_eq_left h]
    have hsum : ∑ i ∈ Finset.range inputs.length, inputs.getD i 0 * n.weights.getD i 0
        = ∑ i ∈ Finset.range n.weights.length,
            (inputs ++ List.replicate (n.weights.length - inputs.length) (0:ℚ)).getD i 0
              * n.weights.getD i 0 := by
      rw [Finset.sum_subset (Finset.range_subset.mpr h)]
      · exact Finset.sum_congr rfl (fun i _ => by rw [getD_append_replicate_zero])
      · intro i _ hi
        rw [List.getD_eq_default, zero_mul]
        exact Nat.le_of_not_lt (fun hc => hi (Finset.mem_range.mpr hc))
    rw [hsum]

/-- Witness for C4 amended: the concrete neuron with two weights, applied
to the overlong input `[1/2, 1, 5]` (truncated) and to the short input
`[1/2]` (behaves as zero-padded). -/
theorem propagate_mismatch_behavior_witness :
    ((Neuron.mk (1/2) [-3/10, 8/10]).weights.length ≤ [(1:ℚ)/2, 1, 5].length ∧
      Neuron.propagate ⟨1/2, [-3/10, 8/10]⟩ [1/2, 1, 5]
        = Neuron.propagate ⟨1/2, [-3/10, 8/10]⟩
            ([(1:ℚ)/2, 1, 5].take (Neuron.mk (1/2) [-3/10, 8/10]).weights.length)) ∧
    ([(1:ℚ)/2].length ≤ (Neuron.mk (1/2) [-3/10, 8/10]).weights.length ∧
      Neuron.propagate ⟨1/2, [-3/10, 8/10]⟩ [1/2]
        = Neuron.propagate ⟨1/2, [-3/10, 8/10]⟩
            ([(1:ℚ)/2] ++ List.replicate
              ((Neuron.mk (1/2) [-3/10, 8/10]).weights.length - [(1:ℚ)/2].length) 0)) :=
  ⟨⟨by simp, propagate_mismatch_behavior.1 ⟨1/2, [-3/10, 8/10]⟩ [1/2, 1, 5] (by simp)⟩,
   ⟨by simp, propagate_mismatch_behavior.2 ⟨1/2, [-3/10, 8/10]⟩ [1/2] (by simp)⟩⟩

/-- C8: `Network::random` with fewer than two topology entries fails with
`InvalidTopology`; with two or more entries it succeeds. -/
theorem network_random_topology_validation :
    ∀ (rng : Rng) (topo : List LayerTopology),
      (topo.length < 2 → Network.random rng topo = .error .invalidTopology) ∧
      (2 ≤ topo.length → ∃ net rng2, Network.random rng topo = .ok (net, rng2)) := by
  intro rng topo
  constructor
  · intro h
    rw [Network.random, if_neg (by omega)]
  · intro h
    rw [Network.random, if_pos (by omega)]
    exact ⟨_, _, rfl⟩

/-- A fixed deterministic random source used by the concrete witnesses:
every raw draw is `0`. -/
def rngW : Rng := ⟨fun _ => 0, 0⟩

/-- Witness for C8: the single-entry topology `[2]` fails with
`InvalidTopology`, and the two-entry topology `[2, 1]` succeeds. -/
theorem network_random_topology_validation_witness :
    (([LayerTopology.mk 2].length < 2 ∧
      Network.random rngW [⟨2⟩] = .error .invalidTopology) ∧
     (2 ≤ [LayerTopology.mk 2, LayerTopology.mk 1].length ∧
      ∃ net rng2, Network.random rngW [⟨2⟩, ⟨1⟩] = .ok (net, rng2))) :=
  ⟨⟨by simp, (network_random_topology_validation rngW [⟨2⟩]).1 (by simp)⟩,
   ⟨by simp, (network_random_topology_validation rngW [⟨2⟩, ⟨1⟩]).2 (by simp)⟩⟩

/-- The sampled index of `WeightedIndex` stays in bounds whenever the drawn
point lies in `[0, total)`. -/
lemma pickWeighted_lt_length : ∀ (ws : List ℚ) (x : ℚ), 0 ≤ x → x < ws.sum →
    pickWeighted ws x < ws.length := by
  intro ws
  induction ws with
  | nil =>
    intro x hx hlt
    rw [List.sum_nil] at hlt
    exact absurd (lt_of_le_of_lt hx hlt) (lt_irrefl 0)
  | cons w ws ih =>
    intro x hx hlt
    rw [pickWeighted]
    split
    · exact Nat.succ_pos _
    · next h =>
      rw [List.sum_cons] at hlt
      exact Nat.succ_lt_succ (ih (x - w) (by linarith [not_lt.mp h]) (by linarith))

/-- On a population with no negative fitness and positive total fitness,
roulette-wheel selection succeeds and returns a member of the population,
whatever the state of the random source. -/
lemma roulette_select_ok {I : Type} (ind : IndividualImpl I) (pop : List I)
    (hnonneg : ∀ i ∈ pop, 0 ≤ ind.fitness i)
    (hpos : 0 < (pop.map ind.fitness).sum) :
    ∀ rng : Rng, ∃ a rng2,
      RouletteWheelSelection.select ind rng pop = .ok (a, rng2) ∧ a ∈ pop := by
  intro rng
  have hne : pop ≠ [] := by
    intro hnil
    rw [hnil] at hpos
    simp at hpos
  have hnoneg : ¬ ∃ w ∈ pop.map ind.fitness, w < 0 := by
    rintro ⟨w, hw, hwlt⟩
    obtain ⟨i, hi, rfl⟩ := List.mem_map.mp hw
    exact absurd (hnonneg i hi) (not_le.mpr hwlt)
  have hfr0 : (0:ℚ) ≤ Int.fract (rng.stream rng.idx) := Int.fract_nonneg _
  have hfr1 : Int.fract (rng.stream rng.idx) < 1 := Int.fract_lt_one _
  have hx0 : 0 ≤ Int.fract (rng.stream rng.idx) * (pop.map ind.fitness).sum :=
    mul_nonneg hfr0 (le_of_lt hpos)
  have hxlt : Int.fract (rng.stream rng.idx) * (pop.map ind.fitness).sum
      < (pop.map ind.fitness).sum := by
    calc Int.fract (rng.stream rng.idx) * (pop.map ind.fitness).sum
        < 1 * (pop.map ind.fitness).sum := by
          exact mul_lt_mul_of_pos_right hfr1 hpos
      _ = (pop.map ind.fitness).sum := one_mul _
  have hidx : pickWeighted (pop.map ind.fitness)
      (Int.fract (rng.stream rng.idx) * (pop.map ind.fitness).sum) < pop.length := by
    have := pickWeighted_lt_length (pop.map ind.fitness) _ hx0 hxlt
    rwa [List.length_map] at this
  have hsome : pop[pickWeighted (pop.map ind.fitness)
      (Int.fract (rng.stream rng.idx) * (pop.map ind.fitness).sum)]?
      = some (pop.get ⟨_, hidx⟩) := List.getElem?_eq_getElem hidx
  refine ⟨pop.get ⟨_, hidx⟩, ⟨rng.stream, rng.idx + 1⟩, ?_, List.get_mem pop _ hidx⟩
  have hlen0 : ¬ pop.length = 0 := by
    simpa [List.length_eq_zero] using hne
  simp only [RouletteWheelSelection.select, Rng.unit]
  rw [if_neg hlen0, if_neg hnoneg, if_neg (ne_of_gt hpos)]
  simp only [hsome]

/-- C5: roulette-wheel selection over an empty population or over an
all-zero-fitness population fails with `EmptyOrDegeneratePopulation`. -/
theorem roulette_degenerate_failure :
    ∀ {I : Type} (ind : IndividualImpl I) (rng : Rng) (pop : List I),
      (pop = [] ∨ ∀ i ∈ pop, ind.fitness i = 0) →
      RouletteWheelSelection.select ind rng pop
        = .error .emptyOrDegeneratePopulation := by
  intro I ind rng pop h
  simp only [RouletteWheelSelection.select]
  rcases h with hnil | hzero
  · rw [if_pos (by rw [hnil]; rfl)]
  · by_cases hnil : pop.length = 0
    · rw [if_pos hnil]
    · rw [if_neg hnil]
      by_cases hneg : ∃ w ∈ pop.map ind.fitness, w < 0
      · rw [if_pos hneg]
      · rw [if_neg hneg, if_pos]
        exact List.sum_eq_zero (by
          intro w hw
          obtain ⟨i, hi, rfl⟩ := List.mem_map.mp hw
          exact hzero i hi)

/-- The concrete `Individual` used by the witnesses: a chromosome plus a
fitness value. -/
structure TestIndividual where
  chromosome : Chromosome
  fitness : ℚ
deriving DecidableEq, Repr

/-- The `Individual` capability set of `TestIndividual`. -/
def testIndividualImpl : IndividualImpl TestIndividual :=
  ⟨TestIndividual.chromosome, TestIndividual.fitness⟩

/-- Witness for C5: a one-individual population whose only fitness is `0`
fails with `EmptyOrDegeneratePopulation`. -/
theorem roulette_degenerate_failure_witness :
    (([TestIndividual.mk ⟨[1, 2]⟩ 0] = ([] : List TestIndividual)
        ∨ ∀ i ∈ [TestIndividual.mk ⟨[1, 2]⟩ 0], testIndividualImpl.fitness i = 0) ∧
      RouletteWheelSelection.select testIndividualImpl rngW [TestIndividual.mk ⟨[1, 2]⟩ 0]
        = .error .emptyOrDegeneratePopulation) :=
  ⟨Or.inr (by simp [testIndividualImpl]),
   roulette_degenerate_failure testIndividualImpl rngW [TestIndividual.mk ⟨[1, 2]⟩ 0]
     (Or.inr (by simp [testIndividualImpl]))⟩

/-- Per-position shape of the spec-modelled uniform crossover: the child's
gene list has the parents' common length and every position is copied from
one of the two parents. -/
lemma crossoverGenes_spec : ∀ (as bs : List ℚ) (rng : Rng), as.length = bs.length →
    (UniformCrossover.crossoverGenes as bs rng).1.length = as.length ∧
    ∀ i, i < as.length →
      (UniformCrossover.crossoverGenes as bs rng).1[i]? = as[i]? ∨
      (UniformCrossover.crossoverGenes as bs rng).1[i]? = bs[i]? := by
  intro as
  induction as with
  | nil =>
    intro bs rng h
    rcases List.length_eq_zero.mp h.symm with rfl
    exact ⟨rfl, fun i hi => absurd hi (Nat.not_lt_zero i)⟩
  | cons a as ih =>
    intro bs rng h
    cases bs with
    | nil => exact absurd h (by simp)
    | cons b bs =>
      have hlen : as.length = bs.length := Nat.succ_injective h
      simp only [UniformCrossover.crossoverGenes]
      obtain ⟨ihlen, ihpos⟩ := ih bs (rng.genBool).2 hlen
      constructor
      · simp [ihlen]
      · intro i hi
        cases i with
        | zero =>
          cases hcoin : (rng.genBool).1 <;> simp [hcoin]
        | succ i =>
          simp only [List.getElem?_cons_succ]
          exact ihpos i (Nat.lt_of_succ_lt_succ hi)

/-- Equal-length parents always cross over successfully. -/
lemma uniform_crossover_ok (rng : Rng) (a b : Chromosome) (h : a.len = b.len) :
    ∃ c rng2, UniformCrossover.crossover rng a b = .ok (c, rng2) := by
  rw [UniformCrossover.crossover, if_pos h]
  exact ⟨_, _, rfl⟩

/-- C3: uniform crossover of equal-length parents yields a child of the
same length whose every gene is parent A's or parent B's gene at that
position; parents of unequal length fail with `ChromosomeLengthMismatch`. -/
theorem uniform_crossover_spec :
    ∀ (rng : Rng) (a b : Chromosome),
      (a.len = b.len →
        ∃ c rng2, UniformCrossover.crossover rng a b = .ok (c, rng2) ∧
          c.len = a.len ∧
          ∀ i, i < c.len → (c.genes[i]? = a.genes[i]? ∨ c.genes[i]? = b.genes[i]?)) ∧
      (a.len ≠ b.len →
        UniformCrossover.crossover rng a b = .error .chromosomeLengthMismatch) := by
  intro rng a b
  constructor
  · intro h
    obtain ⟨hlen, hpos⟩ := crossoverGenes_spec a.genes b.genes rng h
    refine ⟨⟨(UniformCrossover.crossoverGenes a.genes b.genes rng).1⟩,
      (UniformCrossover.crossoverGenes a.genes b.genes rng).2, ?_, hlen, ?_⟩
    · rw [UniformCrossover.crossover, if_pos h]
    · intro i hi
      exact hpos i (by rw [← hlen]; exact hi)
  · intro h
    rw [UniformCrossover.crossover, if_neg h]

/-- Witness for C3: crossing the equal-length parents `[1, 2]` and `[3, 4]`
succeeds with a gene-wise copy, and the unequal-length parents `[1]` and
`[3, 4]` fail with `ChromosomeLengthMismatch`. -/
theorem uniform_crossover_spec_witness :
    ((Chromosome.mk [1, 2]).len = (Chromosome.mk [3, 4]).len ∧
      (∃ c rng2,
        UniformCrossover.crossover rngW ⟨[1, 2]⟩ ⟨[3, 4]⟩ = .ok (c, rng2) ∧
        c.len = (Chromosome.mk [1, 2]).len ∧
        ∀ i, i < c.len →
          (c.genes[i]? = (Chromosome.mk [1, 2]).genes[i]? ∨
           c.genes[i]? = (Chromosome.mk [3, 4]).genes[i]?))) ∧
    ((Chromosome.mk [1]).len ≠ (Chromosome.mk [3, 4]).len ∧
      UniformCrossover.crossover rngW ⟨[1]⟩ ⟨[3, 4]⟩
        = .error .chromosomeLengthMismatch) :=
  ⟨⟨by simp [Chromosome.len],
    (uniform_crossover_spec rngW ⟨[1, 2]⟩ ⟨[3, 4]⟩).1 (by simp [Chromosome.len])⟩,
   ⟨by simp [Chromosome.len],
    (uniform_crossover_spec rngW ⟨[1]⟩ ⟨[3, 4]⟩).2 (by simp [Chromosome.len])⟩⟩

/-- `gen_range(lo..=hi)` lands in `[lo, hi]` whenever `lo ≤ hi`. -/
lemma genRange_mem (r : Rng) (lo hi : ℚ) (h : lo ≤ hi) :
    lo ≤ (r.genRange lo hi).1 ∧ (r.genRange lo hi).1 ≤ hi := by
  have h0 : (0:ℚ) ≤ Int.fract (r.stream r.idx) := Int.fract_nonneg _
  have h1 : Int.fract (r.stream r.idx) < 1 := Int.fract_lt_one _
  have hd : (0:ℚ) ≤ hi - lo := by linarith
  constructor
  · have := mul_nonneg hd h0
    simp only [Rng.genRange, Rng.unit]
    linarith
  · have := mul_le_mul_of_nonneg_left (le_of_lt h1) hd
    simp only [Rng.genRange, Rng.unit]
    linarith

/-- The well-formedness of one randomly constructed neuron: the declared
weight count, and bias and weights inside `[-1, 1]`. -/
def NeuronOk (inputSize : Nat) (n : Neuron) : Prop :=
  n.weights.length = inputSize ∧ -1 ≤ n.bias ∧ n.bias ≤ 1 ∧
    ∀ w ∈ n.weights, -1 ≤ w ∧ w ≤ 1

/-- The weight draws of `Neuron::random`: `k` values, all in `[-1, 1]`. -/
lemma randomWeights_spec : ∀ (k : Nat) (rng : Rng),
    (Neuron.randomWeights k rng).1.length = k ∧
    ∀ w ∈ (Neuron.randomWeights k rng).1, -1 ≤ w ∧ w ≤ 1 := by
  intro k
  induction k with
  | zero => intro rng; simp [Neuron.randomWeights]
  | succ k ih =>
    intro rng
    obtain ⟨ihlen, ihmem⟩ := ih (rng.genRange (-1) 1).2
    constructor
    · simp [Neuron.randomWeights, ihlen]
    · intro w hw
      simp only [Neuron.randomWeights, List.mem_cons] at hw
      rcases hw with rfl | hw
      · exact genRange_mem rng (-1) 1 (by norm_num)
      · exact ihmem w hw

/-- `Neuron::random` produces a well-formed neuron. -/
lemma neuron_random_spec (rng : Rng) (k : Nat) : NeuronOk k (Neuron.random rng k).1 := by
  obtain ⟨hlen, hmem⟩ := randomWeights_spec k (rng.genRange (-1) 1).2
  obtain ⟨hb1, hb2⟩ := genRange_mem rng (-1) 1 (by norm_num)
  exact ⟨hlen, hb1, hb2, hmem⟩

/-- The neuron draws of `Layer::random`: `k` neurons, all well-formed for
the layer's input size. -/
lemma randomNeurons_spec : ∀ (inN k : Nat) (rng : Rng),
    (Layer.randomNeurons inN k rng).1.length = k ∧
    ∀ nr ∈ (Layer.randomNeurons inN k rng).1, NeuronOk inN nr := by
  intro inN k
  induction k with
  | zero => intro rng; simp [Layer.randomNeurons]
  | succ k ih =>
    intro rng
    obtain ⟨ihlen, ihmem⟩ := ih (Neuron.random rng inN).2
    constructor
    · simp [Layer.randomNeurons, ihlen]
    · intro nr hnr
      simp only [Layer.randomNeurons, List.mem_cons] at hnr
      rcases hnr with rfl | hnr
      · exact neuron_random_spec rng inN
      · exact ihmem nr hnr

/-- The layers built by `Network::random` line up one-for-one with the
adjacent topology pairs: the second component gives the neuron count, the
first the weight count of every neuron. -/
lemma randomLayers_spec : ∀ (ps : List (Nat × Nat)) (rng : Rng),
    List.Forall₂ (fun (l : Layer) (p : Nat × Nat) =>
        l.neurons.length = p.2 ∧ ∀ nr ∈ l.neurons, NeuronOk p.1 nr)
      (Network.randomLayers ps rng).1 ps := by
  intro ps
  induction ps with
  | nil => intro rng; exact List.Forall₂.nil
  | cons p ps ih =>
    intro rng
    obtain ⟨i, o⟩ := p
    simp only [Network.randomLayers]
    refine List.Forall₂.cons ?_ (ih _)
    obtain ⟨hlen, hmem⟩ := randomNeurons_spec i o rng
    exact ⟨hlen, hmem⟩

/-- `windows2` produces one pair per adjacent position. -/
lemma windows2_length : ∀ (l : List Nat), (windows2 l).length = l.length - 1 := by
  intro l
  induction l with
  | nil => rfl
  | cons a l ih =>
    cases l with
    | nil => rfl
    | cons b rest => simpa [windows2] using ih

/-- The `i`-th window of `windows2` is the pair of the `i`-th and
`(i+1)`-th elements. -/
lemma windows2_get : ∀ (l : List Nat) (i : Nat) (h : i + 1 < l.length)
    (h2 : i < (windows2 l).length),
    (windows2 l).get ⟨i, h2⟩ = (l.get ⟨i, Nat.lt_of_succ_lt h⟩, l.get ⟨i+1, h⟩) := by
  intro l
  induction l with
  | nil => intro i h _; exact absurd h (by simp)
  | cons a l ih =>
    intro i h h2
    cases l with
    | nil => exact absurd h (by simp)
    | cons b rest =>
      cases i with
      | zero => rfl
      | succ i =>
        have h' : i + 1 < (b :: rest).length := by
          simpa using Nat.lt_of_succ_lt_succ h
        have h2' : i < (windows2 (b :: rest)).length := by
          simpa [windows2] using h2
        simpa [windows2] using ih i h' h2'

/-- C7: for every topology of at least two entries, `Network::random`
succeeds and builds exactly one layer per adjacent pair: layer `i` has
`topology[i+1]` neurons, each with exactly `topology[i]` weights, and every
bias and weight lies in `[-1, 1]`. -/
theorem network_random_shape (rng : Rng) (topo : List LayerTopology)
    (h : 2 ≤ topo.length) :
    ∃ net rng2, Network.random rng topo = .ok (net, rng2) ∧
      net.layers.length = topo.length - 1 ∧
      ∀ (i : Nat) (h1 : i + 1 < topo.length) (h2 : i < net.layers.length),
        (net.layers.get ⟨i, h2⟩).neurons.length
            = (topo.get ⟨i+1, h1⟩).neurons ∧
        ∀ nr ∈ (net.layers.get ⟨i, h2⟩).neurons,
          nr.weights.length = (topo.get ⟨i, Nat.lt_of_succ_lt h1⟩).neurons ∧
          -1 ≤ nr.bias ∧ nr.bias ≤ 1 ∧
          ∀ w ∈ nr.weights, -1 ≤ w ∧ w ≤ 1 := by
  have hfa := randomLayers_spec (windows2 (topo.map (fun t => t.neurons))) rng
  rw [List.forall₂_iff_get] at hfa
  obtain ⟨hlen, hget⟩ := hfa
  have hwl : (windows2 (topo.map (fun t => t.neurons))).length = topo.length - 1 := by
    rw [windows2_length, List.length_map]
  refine ⟨⟨(Network.randomLayers (windows2 (topo.map (fun t => t.neurons))) rng).1⟩,
    (Network.randomLayers (windows2 (topo.map (fun t => t.neurons))) rng).2, ?_, ?_, ?_⟩
  · rw [Network.random, if_pos (by omega)]
  · rw [hlen, hwl]
  · intro i h1 h2
    have h1m : i + 1 < (topo.map (fun t => t.neurons)).length := by
      rwa [List.length_map]
    have h2w : i < (windows2 (topo.map (fun t => t.neurons))).length := by
      rw [hwl]
      rw [hlen, hwl] at h2
      exact h2
    have hwin := windows2_get (topo.map (fun t => t.neurons)) i h1m h2w
    have hpair := hget i h2 h2w
    rw [hwin] at hpair
    simp only [List.get_eq_getElem, List.getElem_map] at hpair
    simp only [List.get_eq_getElem]
    obtain ⟨hneurons, hok⟩ := hpair
    constructor
    · exact hneurons
    · intro nr hnr
      obtain ⟨hwlen, hb1, hb2, hws⟩ := hok nr hnr
      exact ⟨hwlen, hb1, hb2, hws⟩

/-- Witness for C7: the three-entry topology `[3, 2, 1]` on the fixed
source: the theorem yields the full shape description. -/
theorem network_random_shape_witness :
    2 ≤ [LayerTopology.mk 3, LayerTopology.mk 2, LayerTopology.mk 1].length ∧
    ∃ net rng2,
      Network.random rngW [⟨3⟩, ⟨2⟩, ⟨1⟩] = .ok (net, rng2) ∧
      net.layers.length
          = [LayerTopology.mk 3, LayerTopology.mk 2, LayerTopology.mk 1].length - 1 ∧
      ∀ (i : Nat)
        (h1 : i + 1 < [LayerTopology.mk 3, LayerTopology.mk 2, LayerTopology.mk 1].length)
        (h2 : i < net.layers.length),
        (net.layers.get ⟨i, h2⟩).neurons.length
            = ([LayerTopology.mk 3, LayerTopology.mk 2, LayerTopology.mk 1].get
                ⟨i+1, h1⟩).neurons ∧
        ∀ nr ∈ (net.layers.get ⟨i, h2⟩).neurons,
          nr.weights.length
              = ([LayerTopology.mk 3, LayerTopology.mk 2, LayerTopology.mk 1].get
                  ⟨i, Nat.lt_of_succ_lt h1⟩).neurons ∧
          -1 ≤ nr.bias ∧ nr.bias ≤ 1 ∧
          ∀ w ∈ nr.weights, -1 ≤ w ∧ w ≤ 1 :=
  ⟨by simp, network_random_shape rngW [⟨3⟩, ⟨2⟩, ⟨1⟩] (by simp)⟩

/-- Whenever the per-slot loop of `evolve` succeeds, it yields exactly one
new individual per slot. -/
lemma evolveSlots_length {I : Type} (ga : GeneticAlgorithm I) (pop : List I) :
    ∀ (n : Nat) (rng : Rng) (out : List I) (rng2 : Rng),
      ga.evolveSlots pop n rng = .ok (out, rng2) → out.length = n := by
  intro n
  induction n with
  | zero =>
    intro rng out rng2 h
    simp only [GeneticAlgorithm.evolveSlots, Except.ok.injEq, Prod.mk.injEq] at h
    rw [← h.1]
    rfl
  | succ n ih =>
    intro rng out rng2 h
    simp only [GeneticAlgorithm.evolveSlots] at h
    split at h
    · simp at h
    · split at h
      · simp at h
      · split at h
        · simp at h
        · split at h
          · simp at h
          · next rest rng3 hrec =>
            simp only [Except.ok.injEq, Prod.mk.injEq] at h
            rw [← h.1, List.length_cons, ih _ _ _ hrec]

/-- Whenever selection always succeeds inside the population and crossover
always succeeds on chromosomes of population members, the per-slot loop
succeeds and yields one new individual per slot. -/
lemma evolveSlots_ok {I : Type} (ga : GeneticAlgorithm I) (pop : List I)
    (hsel : ∀ r : Rng, ∃ a r2, ga.selectionMethod r pop = .ok (a, r2) ∧ a ∈ pop)
    (hcross : ∀ (r : Rng) (a b : I), a ∈ pop → b ∈ pop →
      ∃ c r2, ga.crossoverMethod r (ga.ind.chromosome a) (ga.ind.chromosome b)
        = .ok (c, r2)) :
    ∀ (n : Nat) (rng : Rng), ∃ out rng2,
      ga.evolveSlots pop n rng = .ok (out, rng2) ∧ out.length = n := by
  intro n
  induction n with
  | zero => intro rng; exact ⟨[], rng, rfl, rfl⟩
  | succ n ih =>
    intro rng
    obtain ⟨pa, r1, hpa, hpamem⟩ := hsel rng
    obtain ⟨pb, r2, hpb, hpbmem⟩ := hsel r1
    obtain ⟨c, r3, hc⟩ := hcross r2 pa pb hpamem hpbmem
    obtain ⟨rest, r4, hrec, hlen⟩ :=
      ih (ga.fromChromosome (ga.mutationMethod r3 c).1 (ga.mutationMethod r3 c).2).2
    refine ⟨(ga.fromChromosome (ga.mutationMethod r3 c).1
        (ga.mutationMethod r3 c).2).1 :: rest, r4, ?_, by simp [hlen]⟩
    simp only [GeneticAlgorithm.evolveSlots, hpa, hpb, hc, hrec]

/-- C1: `evolve` on the empty population fails with `EmptyPopulation`;
whenever it returns a population it has exactly the input's size; and on a
non-empty population whose selection and crossover steps cannot fail it
does return a population of exactly the input's size. -/
theorem evolve_population_size :
    ∀ {I : Type} (ga : GeneticAlgorithm I) (rng : Rng),
      (ga.evolve rng [] = .error .emptyPopulation) ∧
      (∀ (pop out : List I) (rng2 : Rng),
        ga.evolve rng pop = .ok (out, rng2) → out.length = pop.length) ∧
      (∀ (pop : List I), pop ≠ [] →
        (∀ r : Rng, ∃ a r2, ga.selectionMethod r pop = .ok (a, r2) ∧ a ∈ pop) →
        (∀ (r : Rng) (a b : I), a ∈ pop → b ∈ pop →
          ∃ c r2, ga.crossoverMethod r (ga.ind.chromosome a) (ga.ind.chromosome b)
            = .ok (c, r2)) →
        ∃ out rng2, ga.evolve rng pop = .ok (out, rng2) ∧ out.length = pop.length) := by
  intro I ga rng
  refine ⟨rfl, ?_, ?_⟩
  · intro pop out rng2 h
    cases pop with
    | nil => simp [GeneticAlgorithm.evolve] at h
    | cons p ps =>
      simp only [GeneticAlgorithm.evolve, List.isEmpty_cons, Bool.false_eq_true,
        if_false] at h
      exact evolveSlots_length ga (p :: ps) _ _ _ _ h
  · intro pop hne hsel hcross
    cases pop with
    | nil => exact absurd rfl hne
    | cons p ps =>
      obtain ⟨out, rng2, hok, hlen⟩ :=
        evolveSlots_ok ga (p :: ps) hsel hcross (p :: ps).length rng
      refine ⟨out, rng2, ?_, hlen⟩
      simpa only [GeneticAlgorithm.evolve, List.isEmpty_cons, Bool.false_eq_true,
        if_false] using hok

/-- The concrete genetic algorithm of the witnesses: roulette-wheel
selection, the spec-modelled uniform crossover and mutation, and a
`from_chromosome` that wraps the child chromosome in a fresh individual. -/
def gaW : GeneticAlgorithm TestIndividual where
  ind := testIndividualImpl
  selectionMethod := fun r pop => RouletteWheelSelection.select testIndividualImpl r pop
  crossoverMethod := UniformCrossover.crossover
  mutationMethod := MutationMethod.mutate (1/2) 1
  fromChromosome := fun c r => (⟨c, 0⟩, r)

/-- The concrete two-individual population of the witnesses: equal-length
chromosomes, all fitness values `1`. -/
def popW : List TestIndividual :=
  [⟨⟨[1, 2]⟩, 1⟩, ⟨⟨[3, 4]⟩, 1⟩]

/-- Selection always succeeds on the witness population. -/
lemma popW_select_ok :
    ∀ r : Rng, ∃ a r2, gaW.selectionMethod r popW = .ok (a, r2) ∧ a ∈ popW := by
  intro r
  exact roulette_select_ok testIndividualImpl popW
    (by intro i hi; fin_cases hi <;> norm_num [testIndividualImpl])
    (by norm_num [popW, testIndividualImpl]) r

/-- Crossover always succeeds on members of the witness population. -/
lemma popW_crossover_ok :
    ∀ (r : Rng) (a b : TestIndividual), a ∈ popW → b ∈ popW →
      ∃ c r2, gaW.crossoverMethod r (gaW.ind.chromosome a) (gaW.ind.chromosome b)
        = .ok (c, r2) := by
  intro r a b ha hb
  have h2 : ∀ x ∈ popW, (testIndividualImpl.chromosome x).len = 2 := by
    intro x hx
    fin_cases hx <;> rfl
  exact uniform_crossover_ok r (testIndividualImpl.chromosome a)
    (testIndividualImpl.chromosome b) (by rw [h2 a ha, h2 b hb])

/-- Witness for C1: the two-individual population evolves into a population
of exactly two individuals, and the empty case fails with
`EmptyPopulation`. -/
theorem evolve_population_size_witness :
    gaW.evolve rngW [] = .error .emptyPopulation ∧
    (popW ≠ [] ∧
      ∃ out rng2, gaW.evolve rngW popW = .ok (out, rng2) ∧ out.length = popW.length) :=
  ⟨(evolve_population_size gaW rngW).1,
   ⟨by simp [popW],
    (evolve_population_size gaW rngW).2.2 popW (by simp [popW])
      popW_select_ok popW_crossover_ok⟩⟩

/-- C9: `evolve` is a pure function of the random source and the input
population — two identically seeded runs on the same population return
identical results. -/
theorem evolve_deterministic :
    ∀ {I : Type} (ga : GeneticAlgorithm I) (pop1 pop2 : List I) (rng1 rng2 : Rng),
      rng1 = rng2 → pop1 = pop2 → ga.evolve rng1 pop1 = ga.evolve rng2 pop2 := by
  intro I ga pop1 pop2 rng1 rng2 h1 h2
  rw [h1, h2]

/-- Witness for C9: two runs of the concrete algorithm from the same seed
on the same population coincide. -/
theorem evolve_deterministic_witness :
    rngW = rngW ∧ popW = popW ∧
      gaW.evolve rngW popW = gaW.evolve rngW popW :=
  ⟨rfl, rfl, evolve_deterministic gaW popW popW rngW rngW rfl rfl⟩

end Hivemind
